import Mathlib

/-!
# Verification of the Polymarket gasless-redeem CLI core

Shallow embedding of the repository's core components and proofs about them:

* `RateLimiter` — sliding-window admission gate (`src/src/rateLimiter.ts`);
* `retryWithBackoff` — exponential-backoff retry wrapper (`src/src/utils.ts`);
* `Semaphore` — counting admission gate for bounded concurrency (`src/redeem.js`);
* the redemption orchestrator's per-position result classification and
  final aggregation (`src/redeem.js`, `main`);
* the transaction builders (`src/src/transactions.ts`);
* position grouping (`src/redeem.js`, `getRedeemablePositions`);
* the credential vault (`src/src/transactionManager.ts`, `KeyManager`).

JavaScript numbers used as timestamps and monetary sizes are modelled as `Int`
(timestamps are integer milliseconds from `Date.now()`; sizes/values enter the
claims only through clamping, grouping and summation, which are
representation-independent).  Fallible code returns `Except`/`Option`.
-/

namespace Redeem

/-! ## Rate limiter (`src/src/rateLimiter.ts`)

The TypeScript class keeps a mutable list of request timestamps.  Here the
state is passed explicitly and the current time `now` is a parameter (the
source reads `Date.now()`).  `canMakeRequest` prunes the list as a side
effect, so it returns the updated state alongside its answer, exactly as the
source mutates `this.requests`. -/

structure RateLimiter where
  requestsPerMinute : Nat
  burstLimit : Nat
  windowMs : Int
  requests : List Int
deriving Repr, DecidableEq

namespace RateLimiter

/-- The pruning step at the top of `canMakeRequest`:
`this.requests = this.requests.filter(t => now - t < this.windowMs)`. -/
def prune (rl : RateLimiter) (now : Int) : List Int :=
  rl.requests.filter (fun t => now - t < rl.windowMs)

/-- `canMakeRequest` from `src/src/rateLimiter.ts` lines 25–48: prune, then
deny if the pruned count reaches `burstLimit`, then deny if the count of
entries within the last 60 000 ms reaches `requestsPerMinute`. -/
def canMakeRequest (rl : RateLimiter) (now : Int) : Bool × RateLimiter :=
  let pruned := rl.prune now
  let rl' := { rl with requests := pruned }
  if pruned.length ≥ rl.burstLimit then (false, rl')
  else
    let recent := pruned.filter (fun t => now - t < 60000)
    if recent.length ≥ rl.requestsPerMinute then (false, rl') else (true, rl')

/-- `recordRequest`: push the current timestamp. -/
def recordRequest (rl : RateLimiter) (now : Int) : RateLimiter :=
  { rl with requests := rl.requests ++ [now] }

/-- `getTimeUntilNextRequest` from `src/src/rateLimiter.ts` lines 60–90.
`Math.min(...list)` on a nonempty list is `List.minimum?`; the source guards
both spreads with emptiness checks (`requests.length === 0`,
`recentRequests.length === 0`), mirrored by the `match`es. -/
def getTimeUntilNextRequest (rl : RateLimiter) (now : Int) : Int :=
  let res := rl.canMakeRequest now
  if res.1 then 0
  else
    match res.2.requests.min? with
    | none => 0
    | some oldest =>
      let burstClearTime := rl.windowMs - (now - oldest)
      let recent := res.2.requests.filter (fun t => now - t < 60000)
      match recent.min? with
      | none => max 0 burstClearTime
      | some oldestRecent =>
        let rateClearTime := 60000 - (now - oldestRecent)
        max 0 (min burstClearTime rateClearTime)

/-- `executeWithRateLimit` from `src/src/rateLimiter.ts` lines 106–121 as a
state transformer.  The wrapped operation's outcome is the parameter `op`
(the operation is opaque I/O); `start` is the time at which the caller
invokes the wrapper, `dur` is the time the wrapped operation takes.  The
source first awaits `waitForNextRequest` (sleeping `getTimeUntilNextRequest`
milliseconds), then invokes the operation, then records a timestamp in both
the success branch and the `catch` branch, re-throwing the error unchanged. -/
def executeWithRateLimit (rl : RateLimiter) (start : Int) (dur : Int)
    (op : Except String α) : Except String α × RateLimiter :=
  let waitTime := rl.getTimeUntilNextRequest start
  let finish := start + waitTime + dur
  match op with
  | .ok a => (.ok a, rl.recordRequest finish)
  | .error e => (.error e, rl.recordRequest finish)

end RateLimiter

/-! ## Retry policy (`src/src/utils.ts`, `retryWithBackoff`)

The source loops `for (attempt = 0; attempt <= maxRetries; attempt++)`,
returning the operation's value on success; on failure it re-throws the last
error once `attempt === maxRetries`, otherwise it sleeps
`min(baseDelay * multiplier^attempt, maxBackoffTime)` and retries.  The
operation is modelled as a function `fn` from the attempt index to that
attempt's outcome.  The result records the value/error, the number of
invocations made and the list of delays slept, in order. -/

structure RetryTrace (α : Type) where
  result : Except String α
  invocations : Nat
  delays : List Int
deriving Repr

/-- One loop step at attempt index `attempt` with `fuel = maxRetries - attempt`
attempts still allowed after this one (`fuel = 0` is the `attempt ===
maxRetries` iteration, which throws instead of sleeping). -/
def retryAux (fn : Nat → Except String α) (baseDelay mult maxBackoff : Int) :
    Nat → Nat → RetryTrace α
  | 0, attempt =>
    (match fn attempt with
     | .ok a => ⟨.ok a, 1, []⟩
     | .error e => ⟨.error e, 1, []⟩)
  | fuel + 1, attempt =>
    (match fn attempt with
     | .ok a => ⟨.ok a, 1, []⟩
     | .error _ =>
       let d := min (baseDelay * mult ^ attempt) maxBackoff
       let rest := retryAux fn baseDelay mult maxBackoff fuel (attempt + 1)
       ⟨rest.result, rest.invocations + 1, d :: rest.delays⟩)

/-- `retryWithBackoff(fn, maxRetries, baseDelay)`: run the loop from
`attempt = 0`; the loop body executes at most `maxRetries + 1` times.
`mult`/`maxBackoff` are `CONFIG.api.backoffMultiplier`/`maxBackoffTime`. -/
def retryWithBackoff (fn : Nat → Except String α) (maxRetries : Nat)
    (baseDelay mult maxBackoff : Int) : RetryTrace α :=
  retryAux fn baseDelay mult maxBackoff maxRetries 0

/-! ## Counting semaphore (`src/redeem.js` lines 1311–1341)

`acquire()` admits immediately when `current < maxConcurrent` (incrementing
`current`), otherwise enqueues the caller; `release()` decrements `current`
and, when the queue is nonempty, re-increments it and wakes one waiter.  The
wait queue is modelled by its length: the resolver functions carry no data. -/

structure Semaphore where
  maxConcurrent : Int
  current : Int
  waitQueue : Nat
deriving Repr, DecidableEq

namespace Semaphore

/-- A fresh semaphore, as built by `new Semaphore(maxConcurrent)`. -/
def init (maxConcurrent : Int) : Semaphore := ⟨maxConcurrent, 0, 0⟩

/-- `acquire`: the returned `Bool` tells whether the caller was admitted
immediately (`true`) or parked on the wait queue (`false`). -/
def acquire (s : Semaphore) : Semaphore × Bool :=
  if s.current < s.maxConcurrent then ({ s with current := s.current + 1 }, true)
  else ({ s with waitQueue := s.waitQueue + 1 }, false)

/-- `release`: decrement, then transfer the slot to one waiter if any. -/
def release (s : Semaphore) : Semaphore :=
  let c := s.current - 1
  if s.waitQueue > 0 then
    { s with current := c + 1, waitQueue := s.waitQueue - 1 }
  else
    { s with current := c }

/-- Events observable at the semaphore: an `acquire` call or a `release`
call.  `release` is only ever reached from the `finally` block of a task
whose `acquire` has completed (directly or by being woken), which is the
`current > 0` side condition of `ValidTrace`. -/
inductive Event where
  | acquire
  | release
deriving Repr, DecidableEq

/-- Run a sequence of events from a state. -/
def run (s : Semaphore) : List Event → Semaphore
  | [] => s
  | .acquire :: es => run (s.acquire).1 es
  | .release :: es => run s.release es

/-- A trace is valid when every `release` happens while some task holds a
slot (`current > 0`): in the source, `release()` sits in a `finally` block
that runs only after the corresponding `acquire()` resolved, and `current`
counts exactly the admitted-and-not-yet-released tasks. -/
def ValidTrace (s : Semaphore) : List Event → Prop
  | [] => True
  | .acquire :: es => ValidTrace (s.acquire).1 es
  | .release :: es => 0 < s.current ∧ ValidTrace s.release es

instance : ∀ (s : Semaphore) (es : List Event), Decidable (ValidTrace s es)
  | _, [] => by unfold ValidTrace; exact inferInstance
  | s, .acquire :: es => by
      unfold ValidTrace
      exact instDecidableValidTrace (s.acquire).1 es
  | s, .release :: es => by
      unfold ValidTrace
      have := instDecidableValidTrace s.release es
      exact inferInstance

/-- The semaphore invariant: the held count stays between `0` and
`maxConcurrent`, and waiters only exist while the gate is full. -/
def Inv (s : Semaphore) : Prop :=
  0 ≤ s.current ∧ s.current ≤ s.maxConcurrent ∧ (0 < s.waitQueue → s.current = s.maxConcurrent)

end Semaphore

/-! ## Validators (`src/src/utils.ts`, `validators`) -/

/-- A hex digit, as matched by `[a-fA-F0-9]`. -/
def isHexDigitChar (c : Char) : Bool :=
  ('0' ≤ c ∧ c ≤ '9') ∨ ('a' ≤ c ∧ c ≤ 'f') ∨ ('A' ≤ c ∧ c ≤ 'F')

/-- `validators.isValidBytes32`: the regex `/^0x[a-fA-F0-9]{64}$/`, matched
against the string's character list. -/
def isValidBytes32 (s : String) : Bool :=
  match s.data with
  | '0' :: 'x' :: rest => rest.length = 64 ∧ rest.all isHexDigitChar
  | _ => false

/-! ## Transaction builders (`src/src/transactions.ts`)

`encodeFunctionData` (viem) ABI-encodes the call.  For
`redeemPositions(bytes32 _conditionId, uint256[] _amounts)` the encoding
after the 4-byte selector is: the `bytes32` word, the offset word `0x40` to
the dynamic array, the array length word, then the array elements in order,
one 256-bit word each.  The selector is a fixed 4-byte constant produced by
the external encoder, identical for every call, so the payload is modelled as
the list of argument words after it. -/

/-- Value of a hex digit. -/
def hexVal (c : Char) : Nat :=
  if '0' ≤ c ∧ c ≤ '9' then c.toNat - '0'.toNat
  else if 'a' ≤ c ∧ c ≤ 'f' then c.toNat - 'a'.toNat + 10
  else if 'A' ≤ c ∧ c ≤ 'F' then c.toNat - 'A'.toNat + 10
  else 0

/-- Numeric value of a `0x`-prefixed hex string. -/
def hexToNat (s : String) : Nat :=
  (s.data.drop 2).foldl (fun acc c => acc * 16 + hexVal c) 0

/-- `Transaction` (`src/unnamed/part_000`): `{to, data, value}`.  `data` is
the ABI argument payload as 256-bit words (selector omitted, see above). -/
structure Transaction where
  «to» : String
  data : List Nat
  value : String
deriving Repr, DecidableEq

/-- `CONFIG.contracts.negRiskAdapter`. -/
def negRiskAdapterAddr : String := "0xd91E80cF2E7be2e162c6513ceD06f1dD0dA35296"

/-- `createNegRiskRedeemTx` from `src/src/transactions.ts` lines 59–91:
validate the condition id, reject empty or negative `amounts`, then encode
`redeemPositions(conditionId, amounts)` against the NegRisk adapter.
`amounts` are TypeScript `bigint`s, modelled as `Int`. -/
def createNegRiskRedeemTx (conditionId : String) (amounts : List Int) :
    Except String Transaction :=
  if ¬ isValidBytes32 conditionId then
    .error ("Invalid condition ID: " ++ conditionId)
  else if amounts.length = 0 then
    .error "Amounts must be a non-empty array"
  else if amounts.any (fun a => a < 0) then
    .error "Invalid amount: must be non-negative bigint"
  else
    .ok { «to» := negRiskAdapterAddr
          data := hexToNat conditionId :: 0x40 :: amounts.length ::
                  amounts.map Int.toNat
          value := "0" }

/-! ## Per-position submission outcome and result classification
(`src/redeem.js`, `main`, lines 1530–1592)

Each position's redemption runs in an async closure whose body is
`try { build; submit; wait } catch { … } finally { release }`.  The closure's
interaction with the external relayer is summarised by a `SubmitOutcome`:
either `response.wait()` returned an object with a `transactionHash` (whose
`state` may or may not be `STATE_FAILED`), or it returned without a hash, or
some step of the body threw (build validation error, relayer error, or the
`withTimeout` rejection). -/

inductive SubmitOutcome where
  /-- `response.wait()` yielded a `transactionHash`; `failedOnChain` is
  whether its `state` was `STATE_FAILED`. -/
  | confirmed (txHash : String) (failedOnChain : Bool)
  /-- `response.wait()` yielded no `transactionHash`. -/
  | noHash
  /-- the body threw with message `msg` before or during settlement. -/
  | thrown (msg : String)
deriving Repr, DecidableEq

/-- `RedemptionResult` (`src/unnamed/part_000` lines 69–74):
`{success, txHash?, url?, error?}`. -/
structure RedemptionResult where
  success : Bool
  txHash : Option String
  url : Option String
  error : Option String
deriving Repr, DecidableEq

/-- The polygonscan link built for a transaction hash. -/
def explorerUrl (txHash : String) : String :=
  "https://polygonscan.com/tx/" ++ txHash

/-- The `RedemptionResult` the per-position closure returns for each
`SubmitOutcome`, from `src/redeem.js` lines 1559–1591 (`main`):
a hash with `STATE_FAILED` → `{success:false, txHash, url}`;
a hash otherwise → `{success:true, txHash, url}`;
no hash → `{success:false, error:'No transaction hash'}`;
a thrown error → `{success:false, error: message}`. -/
def runPosition : SubmitOutcome → RedemptionResult
  | .confirmed h true => ⟨false, some h, some (explorerUrl h), none⟩
  | .confirmed h false => ⟨true, some h, some (explorerUrl h), none⟩
  | .noHash => ⟨false, none, none, some "No transaction hash"⟩
  | .thrown m => ⟨false, none, none, some m⟩

/-- The number of `release()` calls the per-position closure performs for a
given outcome: `release` lives in the `finally` block, so every branch of the
body — both `return`s of the `try`, the no-hash `return`, and the `catch`'s
`return` — performs exactly one. -/
def runPositionReleases : SubmitOutcome → Nat
  | .confirmed _ true => 1
  | .confirmed _ false => 1
  | .noHash => 1
  | .thrown _ => 1

/-- `MainResult` — the aggregate returned by `main` (`src/redeem.js` lines
1618–1622): `{redeemed, total, transactions}`. -/
structure MainResult where
  redeemed : Nat
  total : Nat
  transactions : List String
deriving Repr, DecidableEq

/-- The aggregation after `Promise.all` (`src/redeem.js` lines 1602–1622):
`successCount` counts results with `success`, `successfulTxs` filters
`r.success && r.txHash`, and `transactions` maps those to their hashes. -/
def aggregate (rs : List RedemptionResult) : MainResult :=
  let successCount := (rs.filter (fun r => r.success)).length
  let successfulTxs := rs.filter (fun r => r.success ∧ r.txHash.isSome)
  { redeemed := successCount
    total := rs.length
    transactions := successfulTxs.filterMap (fun r => r.txHash) }

/-- The whole redemption pass over the fetched positions, abstracted over the
relayer's per-position outcomes: `Promise.all` waits for every element of
`results`, one per position, then aggregates.  (Concurrency interleaving does
not affect the aggregate: each promise settles to `runPosition` of its own
outcome, independent of the others.) -/
def orchestrate (outcomes : List SubmitOutcome) : MainResult :=
  aggregate (outcomes.map runPosition)

/-! ## Position grouping (`src/redeem.js`, `getRedeemablePositions`,
lines 1265–1305)

Raw entries from the data API are grouped by `conditionId` into a
`Map<string, Position>` (insertion-ordered, as JavaScript `Map` is); the
monetary `size`/`currentValue` numbers are modelled as `Int` (the claims
touch them only through `Math.max(0, ·)` and `+`). -/

/-- A raw entry from the data API (`RawPositionData` in
`src/unnamed/part_000`); absent fields are `none`. -/
structure RawPositionData where
  conditionId : Option String
  title : Option String
  negativeRisk : Bool
  outcome : Option String
  outcomeIndex : Option Int
  size : Option Int
  currentValue : Option Int
deriving Repr, DecidableEq

/-- An `Outcome` of a grouped position (`src/unnamed/part_000`). -/
structure Outcome where
  outcome : String
  outcomeIndex : Int
  size : Int
  value : Int
deriving Repr, DecidableEq

/-- A grouped `Position` (`src/unnamed/part_000`). -/
structure Position where
  conditionId : String
  title : String
  negativeRisk : Bool
  outcomes : List Outcome
  totalValue : Int
  totalSize : Int
deriving Repr, DecidableEq

/-- JavaScript `x || d` for an optional string: `undefined` and `""` are
falsy. -/
def strOrDefault (o : Option String) (d : String) : String :=
  match o with
  | none => d
  | some s => if s = "" then d else s

/-- The per-entry outcome record built at `src/redeem.js` lines 1290–1295:
`Number(x) || 0` turns an absent field into `0`, and `size`/`value` are
clamped with `Math.max(0, ·)`. -/
def mkOutcome (pos : RawPositionData) : Outcome :=
  { outcome := strOrDefault pos.outcome "Unknown"
    outcomeIndex := pos.outcomeIndex.getD 0
    size := max 0 (pos.size.getD 0)
    value := max 0 (pos.currentValue.getD 0) }

/-- Push one outcome into a group and bump the running totals
(`group.outcomes.push(outcome); group.totalValue += …; group.totalSize += …`). -/
def addOutcome (g : Position) (oc : Outcome) : Position :=
  { g with outcomes := g.outcomes ++ [oc]
           totalValue := g.totalValue + oc.value
           totalSize := g.totalSize + oc.size }

/-- The fresh group inserted on a condition id's first appearance
(`byCondition.set(cid, {…, outcomes: [], totalValue: 0, totalSize: 0})`). -/
def newGroup (cid : String) (pos : RawPositionData) : Position :=
  { conditionId := cid
    title := strOrDefault pos.title "Unknown Market"
    negativeRisk := pos.negativeRisk
    outcomes := []
    totalValue := 0
    totalSize := 0 }

/-- One iteration of the grouping loop.  `!pos.conditionId ||
!validators.isValidBytes32(pos.conditionId)` skips the entry; the falsy
empty string is also rejected by the regex, so a single validity check
suffices.  The insertion-ordered `Map` is a list of groups with distinct
condition ids: `Map.set` on a new key appends, `Map.get` + mutation becomes
an update of the unique matching group. -/
def groupStep (acc : List Position) (pos : RawPositionData) : List Position :=
  match pos.conditionId with
  | none => acc
  | some cid =>
    if ¬ isValidBytes32 cid then acc
    else
      let acc₁ := if acc.any (fun g => g.conditionId = cid) then acc
                  else acc ++ [newGroup cid pos]
      acc₁.map (fun g => if g.conditionId = cid then addOutcome g (mkOutcome pos) else g)

/-- The grouping phase of `getRedeemablePositions`: fold the loop over the
fetched entries and return `Array.from(byCondition.values())`, i.e. the
groups in insertion order of first appearance. -/
def getRedeemablePositions (raws : List RawPositionData) : List Position :=
  raws.foldl groupStep []

/-! ## Credential vault (`src/src/transactionManager.ts`, `KeyManager`)

`encrypt`/`decrypt` call `node:crypto`'s PBKDF2 and AES-256-GCM, which are
external primitives.  They are modelled *ideally*:

* `deriveKey` (PBKDF2-SHA256, 100 000 iterations) is modelled as a
  collision-free KDF — an injective, length-prefixed packing of the password
  and salt.  Real PBKDF2's guarantees are computational; the ideal model makes
  them exact.
* AES-256-GCM is modelled as an ideal AEAD: the CTR keystream is a cycled-key
  XOR stream (an involution, like the real one), and the 16-byte
  authentication tag is modelled as a *perfectly binding* tag — an injective
  packing of `(key, iv, aad, ciphertext)`.  Real GCM authenticates these up
  to forgery probability 2^-128; the ideal tag makes that exact.

Everything the repository itself contributes — deriving the key from the
*stored* salt, authenticating the salt as associated data, serializing and
re-parsing the JSON bundle, and the fail-closed `try/catch` that converts
every decryption or parse failure into a single `DecryptionError` — is
modelled faithfully on top of these primitives.  `decrypt` returns `none`
for the thrown `'Invalid password or corrupted key file'`. -/

/-- Byte strings (a byte per element). -/
abbrev Bytes := List Nat

/-- The bytes of a string (one code point per element; injective). -/
def strBytes (s : String) : Bytes :=
  s.data.map Char.toNat

/-- Length-prefixed packing, the building block of the ideal primitives. -/
def lenc (xs : Bytes) : Bytes := xs.length :: xs

/-- `EncryptedKeys` (`src/unnamed/part_000`): the decrypted secret bundle. -/
structure EncryptedKeys where
  privateKey : String
  funderAddress : String
  apiKey : String
  apiSecret : String
  apiPassphrase : String
deriving Repr, DecidableEq

/-- `EncryptedData` (`src/unnamed/part_000`): the persisted record.  The
on-disk JSON stores each field hex-encoded; hex encoding is a bijection on
byte strings, so fields are modelled at the byte level. -/
structure EncryptedData where
  salt : Bytes
  iv : Bytes
  encrypted : Bytes
  tag : Bytes
deriving Repr, DecidableEq

namespace KeyManager

/-- Ideal model of `deriveKey` (PBKDF2-SHA256 over password and salt):
injective in the `(password, salt)` pair. -/
def deriveKey (password : String) (salt : Bytes) : Bytes :=
  lenc (strBytes password) ++ lenc salt

/-- The byte of the ideal CTR keystream at offset `i`: the key cycled. -/
def keyByte (key : Bytes) (i : Nat) : Nat :=
  key.getD (i % key.length) 0

/-- Ideal CTR-mode stream cipher: XOR with the cycled key, starting at
stream offset `i`.  Its own inverse, like AES-CTR. -/
def xorCipherAux (key : Bytes) : Nat → Bytes → Bytes
  | _, [] => []
  | i, b :: bs => (b ^^^ keyByte key i) :: xorCipherAux key (i + 1) bs

/-- Encrypt/decrypt a byte string with the ideal stream cipher. -/
def xorCipher (key : Bytes) (data : Bytes) : Bytes :=
  xorCipherAux key 0 data

/-- Ideal GCM authentication tag over key, IV, associated data and
ciphertext: a perfectly binding (injective) packing of all four.  The key
is packed twice, so that two valid tags for distinct same-length keys
differ in at least two byte positions (used for the tamper claim). -/
def gcmTag (key iv aad ct : Bytes) : Bytes :=
  lenc key ++ (lenc key ++ (lenc iv ++ (lenc aad ++ lenc ct)))

/-- `JSON.stringify` of the five-string bundle, modelled as the
length-prefixed packing of the five fields (injective, with a partial
inverse below, like JSON serialization of this record type). -/
def serializeKeys (k : EncryptedKeys) : Bytes :=
  lenc (strBytes k.privateKey) ++ (lenc (strBytes k.funderAddress) ++
    (lenc (strBytes k.apiKey) ++ (lenc (strBytes k.apiSecret) ++
      lenc (strBytes k.apiPassphrase))))

/-- Read one length-prefixed field, returning it and the remainder. -/
def readLenc (bs : Bytes) : Option (Bytes × Bytes) :=
  match bs with
  | [] => none
  | n :: rest => if n ≤ rest.length then some (rest.take n, rest.drop n) else none

/-- Decode bytes back to a string. -/
def bytesStr (bs : Bytes) : String :=
  String.mk (bs.map Char.ofNat)

/-- `JSON.parse` of the serialized bundle: the partial inverse of
`serializeKeys`; any malformed input yields `none` (a thrown parse error in
the source). -/
def deserializeKeys (bs : Bytes) : Option EncryptedKeys :=
  match readLenc bs with
  | none => none
  | some (pk, r1) =>
    match readLenc r1 with
    | none => none
    | some (fa, r2) =>
      match readLenc r2 with
      | none => none
      | some (ak, r3) =>
        match readLenc r3 with
        | none => none
        | some (as_, r4) =>
          match readLenc r4 with
          | none => none
          | some (ap, r5) =>
            if r5 = [] then
              some ⟨bytesStr pk, bytesStr fa, bytesStr ak, bytesStr as_, bytesStr ap⟩
            else none

/-- `KeyManager.encrypt` (`src/src/transactionManager.ts` lines 208–227):
a fresh 32-byte `salt` and 16-byte `iv` are drawn from `crypto.randomBytes`
and are parameters here; the key is derived from `(password, salt)`, the
salt is authenticated as associated data, and the JSON-serialized bundle is
encrypted. -/
def encrypt (data : EncryptedKeys) (password : String) (salt iv : Bytes) :
    EncryptedData :=
  let key := deriveKey password salt
  let ct := xorCipher key (serializeKeys data)
  { salt := salt, iv := iv, encrypted := ct, tag := gcmTag key iv salt ct }

/-- `KeyManager.decrypt` (`src/src/transactionManager.ts` lines 232–252):
re-derive the key from the *stored* salt, check the authentication tag
(`decipher.final` throws on mismatch), then parse the plaintext; every
failure is caught and surfaces as the single `DecryptionError`
`'Invalid password or corrupted key file'`, modelled as `none`.  No partial
plaintext escapes: the function's only outputs are a parsed bundle or
`none`. -/
def decrypt (ed : EncryptedData) (password : String) : Option EncryptedKeys :=
  let key := deriveKey password ed.salt
  if ed.tag = gcmTag key ed.iv ed.salt ed.encrypted then
    deserializeKeys (xorCipher key ed.encrypted)
  else none

/-- `storeKeys` (lines 257–267): encrypt and persist; the persisted record
is the function's value (the file holds its JSON/hex rendering). -/
def storeKeys (keys : EncryptedKeys) (password : String) (salt iv : Bytes) :
    EncryptedData :=
  encrypt keys password salt iv

/-- `loadKeys` (lines 272–282): fail when no record exists, else decrypt
the stored record with the supplied password. -/
def loadKeys (file : Option EncryptedData) (password : String) :
    Option EncryptedKeys :=
  match file with
  | none => none
  | some ed => decrypt ed password

end KeyManager

/-! ## The exclusivity predicate claimed for `RedemptionResult`

Stated from the spec's words ("exactly one of (success path fields) or
(error) is populated"), for comparison with what `runPosition` produces. -/

/-- A result populates exactly one of the success-path field set (transaction
hash and explorer URL, with `success`) or the error field (with
`¬success`). -/
def ExclusiveResult (r : RedemptionResult) : Prop :=
  (r.success = true ∧ r.txHash.isSome ∧ r.url.isSome ∧ r.error = none) ∨
  (r.success = false ∧ r.error.isSome ∧ r.txHash = none ∧ r.url = none)

instance (r : RedemptionResult) : Decidable (ExclusiveResult r) := by
  unfold ExclusiveResult; exact inferInstance

end Redeem

namespace Redeem

/-! # Theorems -/

/-! ## C8 — `executeWithRateLimit` records exactly once and re-raises -/

/-- C8.  `executeWithRateLimit` composes admission, invocation and
recording: whether the wrapped operation returns or throws, exactly one
timestamp is appended to the limiter's list (the invocation's completion
time, after the admission wait of `getTimeUntilNextRequest`), and the
operation's outcome — value or error — is passed through unchanged. -/
theorem executeWithRateLimit_records_once_and_reraises
    (rl : RateLimiter) (start dur : Int) (op : Except String α) :
    (rl.executeWithRateLimit start dur op).2.requests
        = rl.requests ++ [start + rl.getTimeUntilNextRequest start + dur] ∧
    (rl.executeWithRateLimit start dur op).1 = op := by
  cases op <;>
    simp [RateLimiter.executeWithRateLimit, RateLimiter.recordRequest]

/-! ## C10 — `RedemptionResult` exclusivity (corrected) -/

/-- C10, counterexample.  The claim that every produced `RedemptionResult`
populates exactly one of the success-path fields (with `success`) or the
error field (with `¬success`) is false: when the relayer reports a
transaction hash whose state is `STATE_FAILED`, the source returns
`{success:false, txHash, url}` — success-path fields populated, `success`
false, and no `error`. -/
theorem redemptionResult_exclusivity_counterexample :
    ¬ ExclusiveResult (runPosition (.confirmed "0xabc" true)) := by
  decide

/-- C10, amended.  Every `RedemptionResult` produced by a submission attempt
has one of exactly three shapes: `success` with hash and URL and no error;
failure with an error and no hash/URL; or — for a transaction confirmed as
failed on-chain — failure carrying the hash and URL and no error. -/
theorem runPosition_result_shape (o : SubmitOutcome) :
    ((runPosition o).success = true ∧ (runPosition o).txHash.isSome ∧
     (runPosition o).url.isSome ∧ (runPosition o).error = none) ∨
    ((runPosition o).success = false ∧ (runPosition o).error.isSome ∧
     (runPosition o).txHash = none ∧ (runPosition o).url = none) ∨
    ((runPosition o).success = false ∧ (runPosition o).txHash.isSome ∧
     (runPosition o).url.isSome ∧ (runPosition o).error = none) := by
  match o with
  | .confirmed h true => simp [runPosition]
  | .confirmed h false => simp [runPosition]
  | .noHash => simp [runPosition]
  | .thrown m => simp [runPosition]

/-! ## C6 — partial-failure aggregation -/

/-- C6.  The orchestrator consumes one outcome per position (no fail-fast:
`orchestrate` is total in the whole outcome list and its aggregate covers
every element); a thrown error is converted into a `success:false` result
carrying the message; the aggregate's `total` is the number of positions,
`redeemed` the number of `success` results, and `transactions` the hashes of
exactly the `success` results (each of which carries a hash). -/
theorem orchestrate_partial_failure_aggregation (outs : List SubmitOutcome) :
    (orchestrate outs).total = outs.length ∧
    (orchestrate outs).redeemed
       = ((outs.map runPosition).filter (fun r => r.success)).length ∧
    (orchestrate outs).transactions
       = ((outs.map runPosition).filter (fun r => r.success)).filterMap
           (fun r => r.txHash) ∧
    (∀ r ∈ outs.map runPosition, r.success = true →
       r.txHash.isSome ∧ r.error = none) ∧
    (∀ msg, runPosition (.thrown msg)
       = { success := false, txHash := none, url := none, error := some msg }) := by
  refine ⟨?_, ?_, ?_, ?_, ?_⟩
  · simp [orchestrate, aggregate]
  · simp [orchestrate, aggregate]
  · show ((outs.map runPosition).filter
        (fun r => r.success ∧ r.txHash.isSome)).filterMap (fun r => r.txHash) = _
    congr 1
    apply List.filter_congr
    intro r hr
    rcases List.mem_map.1 hr with ⟨o, _, rfl⟩
    match o with
    | .confirmed h true => simp [runPosition]
    | .confirmed h false => simp [runPosition]
    | .noHash => simp [runPosition]
    | .thrown m => simp [runPosition]
  · intro r hr hs
    rcases List.mem_map.1 hr with ⟨o, _, rfl⟩
    match o with
    | .confirmed h true => simp [runPosition] at hs
    | .confirmed h false => simp [runPosition]
    | .noHash => simp [runPosition] at hs
    | .thrown m => simp [runPosition] at hs
  · intro msg
    rfl

/-- C6, witness: the spec's three-position scenario — submission 2 throws,
1 and 3 succeed — aggregates to `{redeemed: 2, total: 3}` with both
successful hashes. -/
theorem orchestrate_partial_failure_aggregation_witness :
    orchestrate [.confirmed "0x1" false, .thrown "boom", .confirmed "0x3" false]
        = { redeemed := 2, total := 3, transactions := ["0x1", "0x3"] } ∧
    (orchestrate [.confirmed "0x1" false, .thrown "boom",
        .confirmed "0x3" false]).total = 3 := by
  have h := orchestrate_partial_failure_aggregation
    [.confirmed "0x1" false, .thrown "boom", .confirmed "0x3" false]
  exact ⟨by decide, h.1.trans rfl⟩

/-! ## C4 — `createNegRiskRedeemTx` validation and ordering -/

/-- C4.  `createNegRiskRedeemTx` fails for every empty amounts list and for
every list containing a negative amount; for a well-formed condition id and
a non-empty list of non-negative amounts (zeros included) it succeeds, and
the encoded payload's trailing words are the amounts themselves, in the
given order (`Int.toNat` is the identity on the non-negative amounts, as
the recovery clause states). -/
theorem createNegRiskRedeemTx_contract (cid : String) (amounts : List Int) :
    ((amounts = [] ∨ ∃ a ∈ amounts, a < 0) →
       ∃ e, createNegRiskRedeemTx cid amounts = .error e) ∧
    (isValidBytes32 cid = true → amounts ≠ [] → (∀ a ∈ amounts, 0 ≤ a) →
       createNegRiskRedeemTx cid amounts
           = .ok { «to» := negRiskAdapterAddr
                   data := hexToNat cid :: 0x40 :: amounts.length ::
                           amounts.map Int.toNat
                   value := "0" } ∧
       (amounts.map Int.toNat).map Int.ofNat = amounts) := by
  constructor
  · intro h
    unfold createNegRiskRedeemTx
    split
    · exact ⟨_, rfl⟩
    · split
      · exact ⟨_, rfl⟩
      · split
        · exact ⟨_, rfl⟩
        · rename_i hlen hneg
          rcases h with h | ⟨a, ha, halt⟩
          · exact absurd (h ▸ rfl) hlen
          · exact absurd (List.any_eq_true.2 ⟨a, ha, by simpa using halt⟩) hneg
  · intro hcid hne hpos
    constructor
    · unfold createNegRiskRedeemTx
      split
      · rename_i hx; exact absurd hcid hx
      · split
        · rename_i h2; exact absurd (List.length_eq_zero.1 h2) hne
        · split
          · rename_i h3
            rcases List.any_eq_true.1 h3 with ⟨a, ha, hlt⟩
            exact absurd (of_decide_eq_true hlt) (not_lt.2 (hpos a ha))
          · rfl
    · rw [List.map_map]
      conv_rhs => rw [← List.map_id amounts]
      apply List.map_congr_left
      intro a ha
      simpa using Int.toNat_of_nonneg (hpos a ha)

/-- C4, witness: with a well-formed condition id, the empty list and a list
with a negative entry fail, and `[1, 0, 5]` succeeds with the amounts' order
preserved in the payload. -/
theorem createNegRiskRedeemTx_contract_witness :
    (∃ e, createNegRiskRedeemTx
        ("0x" ++ String.mk (List.replicate 64 'a')) [] = .error e) ∧
    (∃ e, createNegRiskRedeemTx
        ("0x" ++ String.mk (List.replicate 64 'a')) [1, -2] = .error e) ∧
    createNegRiskRedeemTx ("0x" ++ String.mk (List.replicate 64 'a')) [1, 0, 5]
        = .ok { «to» := negRiskAdapterAddr
                data := hexToNat ("0x" ++ String.mk (List.replicate 64 'a')) ::
                        0x40 :: 3 :: [1, 0, 5]
                value := "0" } := by
  refine ⟨?_, ?_, ?_⟩
  · exact (createNegRiskRedeemTx_contract _ []).1 (Or.inl rfl)
  · exact (createNegRiskRedeemTx_contract _ [1, -2]).1
      (Or.inr ⟨-2, by decide, by decide⟩)
  · have h := ((createNegRiskRedeemTx_contract
      ("0x" ++ String.mk (List.replicate 64 'a')) [1, 0, 5]).2
        (by decide) (by decide) (by decide)).1
    simpa using h

/-! ## C7 — `retryWithBackoff` contract -/

/-- The delay the source computes before retrying failed attempt `k`. -/
def backoffDelay (baseDelay mult maxBackoff : Int) (k : Nat) : Int :=
  min (baseDelay * mult ^ k) maxBackoff

/-- Auxiliary: if every attempt in the remaining window fails, the loop
makes `fuel + 1` further invocations, sleeps the backoff delay after each
failed non-final attempt, and ends with the last attempt's error. -/
theorem retryAux_all_fail (fn : Nat → Except String α)
    (baseDelay mult maxBackoff : Int) (errs : Nat → String) :
    ∀ fuel attempt, (∀ k, k ≤ fuel → fn (attempt + k) = .error (errs (attempt + k))) →
      retryAux fn baseDelay mult maxBackoff fuel attempt
          = ⟨.error (errs (attempt + fuel)), fuel + 1,
             (List.range fuel).map
               (fun j => backoffDelay baseDelay mult maxBackoff (attempt + j))⟩ := by
  intro fuel
  induction fuel with
  | zero =>
    intro attempt h
    have h0 := h 0 (le_refl 0)
    simp only [Nat.add_zero] at h0
    simp [retryAux, h0]
  | succ fuel ih =>
    intro attempt h
    have h0 := h 0 (Nat.zero_le _)
    simp only [Nat.add_zero] at h0
    have hrest := ih (attempt + 1)
      (fun k hk => by
        have hk' := h (k + 1) (Nat.succ_le_succ hk)
        simpa [show attempt + (k + 1) = attempt + 1 + k by omega] using hk')
    simp only [retryAux, h0, hrest]
    congr 1
    · rw [show attempt + 1 + fuel = attempt + (fuel + 1) by omega]
    · rw [List.range_succ_eq_map, List.map_cons, List.map_map, Nat.add_zero]
      congr 1
      apply List.map_congr_left
      intro j _
      simp only [Function.comp]
      congr 1
      omega

/-- Auxiliary: the loop body executes at most `fuel + 1` times. -/
theorem retryAux_invocations_le (fn : Nat → Except String α)
    (baseDelay mult maxBackoff : Int) :
    ∀ fuel attempt,
      (retryAux fn baseDelay mult maxBackoff fuel attempt).invocations ≤ fuel + 1 := by
  intro fuel
  induction fuel with
  | zero =>
    intro attempt
    unfold retryAux
    cases fn attempt <;> simp
  | succ fuel ih =>
    intro attempt
    unfold retryAux
    cases fn attempt with
    | ok a => simp
    | error e =>
      simp only
      exact Nat.add_le_add_right (ih (attempt + 1)) 1

/-- Auxiliary: a success at relative attempt `s`, preceded only by failures,
returns that attempt's value after exactly `s + 1` invocations with the
backoff delays for the `s` failed attempts. -/
theorem retryAux_first_success (fn : Nat → Except String α)
    (baseDelay mult maxBackoff : Int) :
    ∀ fuel attempt s v, s ≤ fuel →
      (∀ j, j < s → ∃ e, fn (attempt + j) = .error e) →
      fn (attempt + s) = .ok v →
      retryAux fn baseDelay mult maxBackoff fuel attempt
          = ⟨.ok v, s + 1,
             (List.range s).map
               (fun j => backoffDelay baseDelay mult maxBackoff (attempt + j))⟩ := by
  intro fuel
  induction fuel with
  | zero =>
    intro attempt s v hs _ hok
    have hs0 : s = 0 := Nat.le_zero.1 hs
    subst hs0
    simp only [Nat.add_zero] at hok
    simp [retryAux, hok]
  | succ fuel ih =>
    intro attempt s v hs hfail hok
    cases s with
    | zero =>
      simp only [Nat.add_zero] at hok
      simp [retryAux, hok]
    | succ s =>
      obtain ⟨e, he⟩ := hfail 0 (Nat.succ_pos s)
      simp only [Nat.add_zero] at he
      have hrest := ih (attempt + 1) s v (Nat.le_of_succ_le_succ hs)
        (fun j hj => by
          obtain ⟨e', he'⟩ := hfail (j + 1) (Nat.succ_lt_succ hj)
          exact ⟨e', by
            simpa [show attempt + 1 + j = attempt + (j + 1) by omega] using he'⟩)
        (by simpa [show attempt + 1 + s = attempt + (s + 1) by omega] using hok)
      simp only [retryAux, he, hrest]
      congr 1
      rw [List.range_succ_eq_map, List.map_cons, List.map_map, Nat.add_zero]
      congr 1
      apply List.map_congr_left
      intro j _
      simp only [Function.comp]
      congr 1
      omega

/-- C7.  `retryWithBackoff` invokes the operation at most `maxRetries + 1`
times; when every attempt fails — whatever the errors are, no
classification — it ends with the *last* attempt's error after exactly
`maxRetries + 1` invocations, sleeping `min(baseDelay·mult^k, maxBackoff)`
before the retry of failed attempt `k` (deterministic, no jitter); and a
first success at any attempt `s` returns that attempt's value immediately
after `s + 1` invocations. -/
theorem retryWithBackoff_contract (fn : Nat → Except String α)
    (maxRetries : Nat) (baseDelay mult maxBackoff : Int) :
    (retryWithBackoff fn maxRetries baseDelay mult maxBackoff).invocations
        ≤ maxRetries + 1 ∧
    (∀ errs : Nat → String, (∀ k, k ≤ maxRetries → fn k = .error (errs k)) →
       retryWithBackoff fn maxRetries baseDelay mult maxBackoff
           = ⟨.error (errs maxRetries), maxRetries + 1,
              (List.range maxRetries).map (backoffDelay baseDelay mult maxBackoff)⟩) ∧
    (∀ s v, s ≤ maxRetries → (∀ j, j < s → ∃ e, fn j = .error e) →
       fn s = .ok v →
       retryWithBackoff fn maxRetries baseDelay mult maxBackoff
           = ⟨.ok v, s + 1,
              (List.range s).map (backoffDelay baseDelay mult maxBackoff)⟩) := by
  refine ⟨retryAux_invocations_le fn baseDelay mult maxBackoff maxRetries 0, ?_, ?_⟩
  · intro errs h
    have := retryAux_all_fail fn baseDelay mult maxBackoff errs maxRetries 0
      (fun k hk => by simpa using h k hk)
    simpa [retryWithBackoff] using this
  · intro s v hs hfail hok
    have := retryAux_first_success fn baseDelay mult maxBackoff maxRetries 0 s v hs
      (fun j hj => by simpa using hfail j hj) (by simpa using hok)
    simpa [retryWithBackoff] using this

/-- C7, witness: with `maxRetries = 3`, base delay 100 and multiplier 2,
an always-failing operation is invoked 4 times, ends with the last error
`"e3"`, and sleeps 100, 200, 400 ms; an operation succeeding at attempt 2
returns its value after 3 invocations. -/
theorem retryWithBackoff_contract_witness :
    retryWithBackoff (fun k => (.error ("e" ++ toString k) : Except String Nat))
        3 100 2 30000
      = ⟨.error "e3", 4, [100, 200, 400]⟩ ∧
    retryWithBackoff
        (fun k => if k < 2 then (.error "boom" : Except String Nat) else .ok k)
        3 100 2 30000
      = ⟨.ok 2, 3, [100, 200]⟩ := by
  constructor
  · have h := (retryWithBackoff_contract
      (fun k => (.error ("e" ++ toString k) : Except String Nat)) 3 100 2 30000).2.1
      (fun k => "e" ++ toString k) (fun k _ => rfl)
    simpa [backoffDelay] using h
  · have h := (retryWithBackoff_contract
      (fun k => if k < 2 then (.error "boom" : Except String Nat) else .ok k)
      3 100 2 30000).2.2 2 2 (by decide)
      (fun j hj => ⟨"boom", by interval_cases j <;> rfl⟩) (by rfl)
    simpa [backoffDelay] using h

/-! ## C3 — semaphore concurrency bound -/

namespace Semaphore

/-- `acquire` preserves the invariant. -/
theorem acquire_inv {s : Semaphore} (h : Inv s) : Inv (s.acquire).1 := by
  obtain ⟨h0, hmax, hwait⟩ := h
  unfold acquire
  split
  · rename_i hlt
    exact ⟨by simp; omega, by simp; omega, fun hw => by
      simp at hw ⊢
      exact absurd (hwait hw) (by omega)⟩
  · rename_i hge
    exact ⟨h0, hmax, fun _ => le_antisymm hmax (not_lt.1 hge)⟩

/-- `release` preserves the invariant when called by a slot holder. -/
theorem release_inv {s : Semaphore} (h : Inv s) (hpos : 0 < s.current) :
    Inv s.release := by
  obtain ⟨h0, hmax, hwait⟩ := h
  simp only [Inv, release]
  split
  · rename_i hw
    have hcur := hwait hw
    refine ⟨by simp; omega, by simp; omega, fun hw2 => by simp at hw2 ⊢; omega⟩
  · rename_i hnw
    simp only [gt_iff_lt, not_lt, Nat.le_zero] at hnw
    refine ⟨by simp; omega, by simp; omega, fun hw2 => by simp at hw2; omega⟩

/-- Neither event changes `maxConcurrent`. -/
theorem run_maxConcurrent (s : Semaphore) :
    ∀ es, (run s es).maxConcurrent = s.maxConcurrent := by
  intro es
  induction es generalizing s with
  | nil => rfl
  | cons e es ih =>
    cases e with
    | acquire =>
      rw [show run s (.acquire :: es) = run (s.acquire).1 es from rfl, ih]
      unfold acquire
      split <;> rfl
    | release =>
      rw [show run s (.release :: es) = run s.release es from rfl, ih]
      unfold release
      split <;> rfl

/-- A valid trace keeps the invariant at its end state. -/
theorem run_inv {s : Semaphore} (hinv : Inv s) :
    ∀ es, ValidTrace s es → Inv (run s es) := by
  intro es
  induction es generalizing s with
  | nil => exact fun _ => hinv
  | cons e es ih =>
    cases e with
    | acquire => exact fun hv => ih (acquire_inv hinv) hv
    | release => exact fun hv => ih (release_inv hinv hv.1) hv.2

/-- Every prefix of a valid trace is valid. -/
theorem validTrace_prefix {s : Semaphore} :
    ∀ pre suf, ValidTrace s (pre ++ suf) → ValidTrace s pre := by
  intro pre
  induction pre generalizing s with
  | nil => exact fun _ _ => trivial
  | cons e pre ih =>
    intro suf hv
    cases e with
    | acquire => exact ih suf hv
    | release => exact ⟨hv.1, ih suf hv.2⟩

end Semaphore

/-- C3.  The admission gate bounds the in-flight count: starting from a
fresh semaphore with capacity `N ≥ 0`, along any valid trace of
`acquire`/`release` events (valid = each `release` is performed by a task
holding a slot, which the source guarantees by placing `release()` in the
`finally` of a body entered only after `acquire()` resolves), the held
count `current` — the number of positions built/submitted and not yet
settled, i.e. in the `Submitted` stage — satisfies `0 ≤ current ≤ N` at
every instant (after every prefix of events); and the per-position body
issues exactly one `release` on each of its exit paths (success, on-chain
failure, thrown error). -/
theorem semaphore_concurrency_bound (N : Int) (hN : 0 ≤ N)
    (es : List Semaphore.Event)
    (hvalid : Semaphore.ValidTrace (Semaphore.init N) es) :
    (∀ pre suf, es = pre ++ suf →
       0 ≤ (Semaphore.run (Semaphore.init N) pre).current ∧
       (Semaphore.run (Semaphore.init N) pre).current ≤ N) ∧
    (∀ o : SubmitOutcome, runPositionReleases o = 1) := by
  constructor
  · intro pre suf hsplit
    have hpre : Semaphore.ValidTrace (Semaphore.init N) pre :=
      Semaphore.validTrace_prefix pre suf (hsplit ▸ hvalid)
    have hinv0 : Semaphore.Inv (Semaphore.init N) :=
      ⟨le_refl 0, hN, fun h => absurd h (by simp [Semaphore.init])⟩
    have hinv := Semaphore.run_inv hinv0 pre hpre
    refine ⟨hinv.1, hinv.2.1.trans_eq ?_⟩
    rw [Semaphore.run_maxConcurrent]
    rfl
  · intro o
    cases o with
    | confirmed h b => cases b <;> rfl
    | noHash => rfl
    | thrown m => rfl

/-- C3, witness: with capacity 2 and three tasks — two admitted, the third
parked, then three releases — the trace is valid and the bound holds at
every prefix; in particular after the first two acquires the count is 2. -/
theorem semaphore_concurrency_bound_witness :
    Semaphore.ValidTrace (Semaphore.init 2)
      [.acquire, .acquire, .acquire, .release, .release, .release] ∧
    (Semaphore.run (Semaphore.init 2) [.acquire, .acquire]).current = 2 ∧
    (Semaphore.run (Semaphore.init 2) [.acquire, .acquire, .acquire]).current = 2 := by
  have h := semaphore_concurrency_bound 2 (by decide)
    [.acquire, .acquire, .acquire, .release, .release, .release] (by decide)
  refine ⟨by decide, ?_, ?_⟩
  · have h2 := h.1 [.acquire, .acquire]
      [.acquire, .release, .release, .release] rfl
    exact le_antisymm h2.2 (by decide)
  · have h3 := h.1 [.acquire, .acquire, .acquire]
      [.release, .release, .release] rfl
    exact le_antisymm h3.2 (by decide)

/-! ## C5 — rate limiter admission and wait time (corrected) -/

namespace RateLimiter

/-- The burst constraint — pruned entry count below the burst limit — holds
at absolute time `t` (stated from the claim's words, for comparison with
the computed wait). -/
def burstSatisfiedAt (rl : RateLimiter) (t : Int) : Bool :=
  (rl.prune t).length < rl.burstLimit

/-- The per-minute constraint — entries within the rolling 60-second window
below the quota — holds at absolute time `t`. -/
def rateSatisfiedAt (rl : RateLimiter) (t : Int) : Bool :=
  ((rl.prune t).filter (fun ts => t - ts < 60000)).length < rl.requestsPerMinute

/-- Denial is exactly: burst-window count at the limit, or 60-second count
at the quota (both over the pruned list). -/
theorem canMakeRequest_false_iff (rl : RateLimiter) (now : Int) :
    (rl.canMakeRequest now).1 = false ↔
      rl.burstLimit ≤ (rl.prune now).length ∨
      rl.requestsPerMinute
        ≤ ((rl.prune now).filter (fun t => now - t < 60000)).length := by
  simp only [canMakeRequest]
  split_ifs with h1 h2
  · simpa using Or.inl h1
  · simpa using Or.inr h2
  · constructor
    · intro h; exact absurd h (by simp)
    · rintro (h | h)
      · exact absurd h h1
      · exact absurd h h2

/-- The second component of `canMakeRequest` holds the pruned list,
whatever the decision. -/
theorem canMakeRequest_snd (rl : RateLimiter) (now : Int) :
    (rl.canMakeRequest now).2.requests = rl.prune now := by
  simp only [canMakeRequest]
  split_ifs <;> rfl

/-- When admission is allowed the wait is zero. -/
theorem getTime_eq_zero_of_ok (rl : RateLimiter) (now : Int)
    (h : (rl.canMakeRequest now).1 = true) :
    rl.getTimeUntilNextRequest now = 0 := by
  simp [getTimeUntilNextRequest, h]

/-- The wait is never negative. -/
theorem getTime_nonneg (rl : RateLimiter) (now : Int) :
    0 ≤ rl.getTimeUntilNextRequest now := by
  simp only [getTimeUntilNextRequest]
  by_cases hok : (rl.canMakeRequest now).1
  · simp [hok]
  · simp only [Bool.not_eq_true] at hok
    simp only [hok, Bool.false_eq_true, if_false]
    rcases hmin : (rl.canMakeRequest now).2.requests.min? with _ | oldest
    · exact le_refl 0
    · rcases hrmin : ((rl.canMakeRequest now).2.requests.filter
        (fun t => now - t < 60000)).min? with _ | oldestRecent
      · simp [hrmin]
      · simp [hrmin]

/-- `min?` of an integer list returns a member below every member. -/
theorem int_min?_spec {l : List Int} {a : Int} (h : l.min? = some a) :
    a ∈ l ∧ ∀ b ∈ l, a ≤ b :=
  (@List.min?_eq_some_iff Int a _ _ ⟨fun h1 h2 => le_antisymm h1 h2⟩
    (fun _ => le_refl _) (fun x y => min_choice x y)
    (fun _ _ _ => le_min_iff) l).1 h

/-- The wait in the denied case, written out: the clamped minimum of the
two oldest-entry window-exit times. -/
theorem getTime_denied_eq (rl : RateLimiter) (now : Int)
    (hok : (rl.canMakeRequest now).1 = false) :
    rl.getTimeUntilNextRequest now =
      match (rl.prune now).min? with
      | none => 0
      | some oldest =>
        match ((rl.prune now).filter (fun t => now - t < 60000)).min? with
        | none => max 0 (rl.windowMs - (now - oldest))
        | some oldestRecent =>
          max 0 (min (rl.windowMs - (now - oldest))
                     (60000 - (now - oldestRecent))) := by
  simp only [getTimeUntilNextRequest, hok, Bool.false_eq_true, if_false,
    canMakeRequest_snd]

/-- The computed wait is sound as a lower bound: for any elapsed time `d`
short of it, admission is still denied (with no new requests, no pruned
entry leaves the configured window before the oldest does, and no
60-second entry leaves that window before the oldest recent one does, so
both counts are unchanged). -/
theorem denied_before_wait (rl : RateLimiter) (now : Int) :
    ∀ d : Int, 0 ≤ d → d < rl.getTimeUntilNextRequest now →
      (rl.canMakeRequest (now + d)).1 = false := by
  intro d hd0 hdlt
  by_cases hok : (rl.canMakeRequest now).1
  · rw [getTime_eq_zero_of_ok rl now hok] at hdlt
    exfalso; omega
  · simp only [Bool.not_eq_true] at hok
    rw [getTime_denied_eq rl now hok] at hdlt
    split at hdlt
    · exfalso; omega
    · rename_i oldest hmin
      obtain ⟨holdmem, hold_le⟩ := int_min?_spec hmin
      -- `d` is below the time for the oldest pruned entry to leave the window
      split at hdlt
      · rename_i hrmin
        have hb : d < rl.windowMs - (now - oldest) := by
          rcases le_total (rl.windowMs - (now - oldest)) 0 with h | h
          · rw [max_eq_left h] at hdlt; exfalso; omega
          · rwa [max_eq_right h] at hdlt
        have hrec_empty : (rl.prune now).filter (fun t => now - t < 60000) = [] := by
          cases hrec : (rl.prune now).filter (fun t => now - t < 60000) with
          | nil => rfl
          | cons a l => rw [hrec] at hrmin; simp [List.min?] at hrmin
        have hprune_eq : rl.prune (now + d) = rl.prune now := by
          unfold prune
          apply List.filter_congr
          intro t ht
          by_cases h1 : now - t < rl.windowMs
          · have htP : t ∈ rl.prune now :=
              List.mem_filter.2 ⟨ht, decide_eq_true h1⟩
            have hle := hold_le t htP
            have h2 : now + d - t < rl.windowMs := by omega
            simp [h1, h2]
          · have h2 : ¬ (now + d - t < rl.windowMs) := by omega
            simp [h1, h2]
        have hrec_eq : (rl.prune (now + d)).filter (fun t => now + d - t < 60000)
            = [] := by
          rw [hprune_eq, List.filter_eq_nil_iff]
          intro a haP
          have hna : ¬ (now - a < 60000) := by
            intro hc
            have : a ∈ (rl.prune now).filter (fun t => now - t < 60000) :=
              List.mem_filter.2 ⟨haP, decide_eq_true hc⟩
            rw [hrec_empty] at this
            exact absurd this (List.not_mem_nil a)
          simp only [decide_eq_true_eq]
          omega
        apply (canMakeRequest_false_iff rl (now + d)).2
        rcases (canMakeRequest_false_iff rl now).1 hok with h | h
        · left; rw [hprune_eq]; exact h
        · right
          rw [hrec_eq, hrec_empty] at *
          simpa using h
      · rename_i oldestRecent hrmin
        obtain ⟨hrecmem, hrec_le⟩ := int_min?_spec hrmin
        have hbr : d < rl.windowMs - (now - oldest) ∧
            d < 60000 - (now - oldestRecent) := by
          rcases le_total (min (rl.windowMs - (now - oldest))
            (60000 - (now - oldestRecent))) 0 with h | h
          · rw [max_eq_left h] at hdlt; exfalso; omega
          · rw [max_eq_right h] at hdlt
            exact lt_min_iff.1 hdlt
        have hprune_eq : rl.prune (now + d) = rl.prune now := by
          unfold prune
          apply List.filter_congr
          intro t ht
          by_cases h1 : now - t < rl.windowMs
          · have htP : t ∈ rl.prune now :=
              List.mem_filter.2 ⟨ht, decide_eq_true h1⟩
            have hle := hold_le t htP
            have h2 : now + d - t < rl.windowMs := by
              have := hbr.1; omega
            simp [h1, h2]
          · have h2 : ¬ (now + d - t < rl.windowMs) := by omega
            simp [h1, h2]
        have hrec_eq : (rl.prune (now + d)).filter (fun t => now + d - t < 60000)
            = (rl.prune now).filter (fun t => now - t < 60000) := by
          rw [hprune_eq]
          apply List.filter_congr
          intro t htP
          by_cases h1 : now - t < 60000
          · have htR : t ∈ (rl.prune now).filter (fun t => now - t < 60000) :=
              List.mem_filter.2 ⟨htP, decide_eq_true h1⟩
            have hle := hrec_le t htR
            have h2 : now + d - t < 60000 := by
              have := hbr.2; omega
            simp [h1, h2]
          · have h2 : ¬ (now + d - t < 60000) := by omega
            simp [h1, h2]
        apply (canMakeRequest_false_iff rl (now + d)).2
        rcases (canMakeRequest_false_iff rl now).1 hok with h | h
        · left; rw [hprune_eq]; exact h
        · right; rw [hrec_eq]; exact h

end RateLimiter

/-- C5, amended.  After pruning, a request is denied iff the pruned count
reaches the burst limit or the 60-second count reaches the per-minute
quota; the computed wait is never negative and is zero whenever admission
is allowed; and when denied, the wait — the smaller of the time for the
oldest pruned entry to leave the configured window and the time for the
oldest 60-second entry to leave that window, clamped to ≥ 0 — is a *lower
bound* on the time until admission becomes possible: for every elapsed
`d` below it, admission is still denied.  (It is not, in general, the
minimum time until either constraint clears; see the counterexample.) -/
theorem rateLimiter_admission_and_wait (rl : RateLimiter) (now : Int) :
    ((rl.canMakeRequest now).1 = false ↔
       rl.burstLimit ≤ (rl.prune now).length ∨
       rl.requestsPerMinute
         ≤ ((rl.prune now).filter (fun t => now - t < 60000)).length) ∧
    0 ≤ rl.getTimeUntilNextRequest now ∧
    ((rl.canMakeRequest now).1 = true → rl.getTimeUntilNextRequest now = 0) ∧
    (∀ d : Int, 0 ≤ d → d < rl.getTimeUntilNextRequest now →
       (rl.canMakeRequest (now + d)).1 = false) :=
  ⟨RateLimiter.canMakeRequest_false_iff rl now,
   RateLimiter.getTime_nonneg rl now,
   RateLimiter.getTime_eq_zero_of_ok rl now,
   RateLimiter.denied_before_wait rl now⟩

/-- A reachable limiter state whose pruned count exceeds the burst limit by
more than one entry (e.g. two `recordRequest`s racing past `waitForNextRequest`,
which re-checks nothing after its sleep): burst limit 1, window 10 ms,
timestamps 5 and 6. -/
def overLimitState : RateLimiter :=
  { requestsPerMinute := 1, burstLimit := 1, windowMs := 10, requests := [5, 6] }

/-- C5, counterexample.  At time 10 the state `overLimitState` is denied
(both constraints are violated) and `getTimeUntilNextRequest` returns 5,
but after waiting those 5 ms *neither* constraint has cleared — the burst
and per-minute counts still sit at their limits and admission is still
denied (it first becomes possible 6 ms out).  So the returned wait is not
the minimum time until either constraint clears, as the claim states. -/
theorem rateLimiter_wait_counterexample :
    (overLimitState.canMakeRequest 10).1 = false ∧
    overLimitState.getTimeUntilNextRequest 10 = 5 ∧
    overLimitState.burstSatisfiedAt (10 + 5) = false ∧
    overLimitState.rateSatisfiedAt (10 + 5) = false ∧
    (overLimitState.canMakeRequest (10 + 5)).1 = false ∧
    (overLimitState.canMakeRequest (10 + 6)).1 = true := by
  decide

/-- C5, witness: at the same denied state the amended bound is exercised —
the wait is 5 and every elapsed time below it (e.g. 4 ms) leaves admission
denied. -/
theorem rateLimiter_admission_and_wait_witness :
    (overLimitState.canMakeRequest 10).1 = false ∧
    (overLimitState.canMakeRequest (10 + 4)).1 = false := by
  have h := rateLimiter_admission_and_wait overLimitState 10
  refine ⟨?_, h.2.2.2 4 (by decide) (by decide)⟩
  exact h.1.2 (Or.inl (by decide))

/-! ## C9 — position grouping -/

/-- The condition id an entry contributes under, if it survives validation:
`none` for a missing or malformed id (the entry is skipped with a warning),
`some cid` otherwise. -/
def rawCid (p : RawPositionData) : Option String :=
  match p.conditionId with
  | none => none
  | some c => if isValidBytes32 c then some c else none

/-- Keep each string's first occurrence, in order of first appearance —
exactly the key order of an insertion-ordered map populated left to
right. -/
def firstOccurrences (l : List String) : List String :=
  l.foldl (fun acc c => if c ∈ acc then acc else acc ++ [c]) []

/-- Membership in the `firstOccurrences` fold. -/
theorem mem_firstOccurrences_foldl (c : String) :
    ∀ (l : List String) (acc : List String),
      (c ∈ l.foldl (fun acc c => if c ∈ acc then acc else acc ++ [c]) acc
        ↔ c ∈ acc ∨ c ∈ l) := by
  intro l
  induction l with
  | nil => intro acc; simp
  | cons x l ih =>
    intro acc
    rw [List.foldl_cons, ih, List.mem_cons]
    by_cases hx : x ∈ acc
    · rw [if_pos hx]
      constructor
      · intro h; tauto
      · rintro (h | rfl | h) <;> tauto
    · rw [if_neg hx, List.mem_append, List.mem_singleton]
      tauto

/-- A string occurs among the first occurrences iff it occurs at all. -/
theorem mem_firstOccurrences {c : String} {l : List String} :
    c ∈ firstOccurrences l ↔ c ∈ l := by
  rw [firstOccurrences, mem_firstOccurrences_foldl]
  simp

/-- The grouping loop invariant: after processing a prefix, the
accumulated groups list the valid condition ids in first-appearance order,
and each group holds exactly the outcomes of its entries with the running
totals equal to the outcome sums. -/
def GroupInv (processed : List RawPositionData) (acc : List Position) : Prop :=
  acc.map Position.conditionId = firstOccurrences (processed.filterMap rawCid) ∧
  ∀ g ∈ acc,
    g.outcomes
        = (processed.filter (fun p => rawCid p = some g.conditionId)).map mkOutcome ∧
    g.totalValue = (g.outcomes.map Outcome.value).sum ∧
    g.totalSize = (g.outcomes.map Outcome.size).sum

/-- Appending one string to the scanned list extends the first-occurrence
list exactly when the string is new. -/
theorem firstOccurrences_append_singleton (l : List String) (c : String) :
    firstOccurrences (l ++ [c])
      = if c ∈ firstOccurrences l then firstOccurrences l
        else firstOccurrences l ++ [c] := by
  unfold firstOccurrences
  rw [List.foldl_append]
  rfl

/-- A singleton filters to nothing when the entry misses the key. -/
theorem filter_singleton_none {q : RawPositionData} {c : String}
    (h : ¬ rawCid q = some c) :
    [q].filter (fun r => rawCid r = some c) = [] := by
  simp [List.filter_cons, h]

/-- A singleton filters to itself when the entry hits the key. -/
theorem filter_singleton_keep {q : RawPositionData} {c : String}
    (h : rawCid q = some c) :
    [q].filter (fun r => rawCid r = some c) = [q] := by
  simp [List.filter_cons, h]

/-- An entry that fails validation changes nothing. -/
theorem groupStep_invalid {processed : List RawPositionData}
    {acc : List Position} (h : GroupInv processed acc)
    (p : RawPositionData) (hp : rawCid p = none) :
    GroupInv (processed ++ [p]) (groupStep acc p) := by
  obtain ⟨hcids, hgroups⟩ := h
  have hstep : groupStep acc p = acc := by
    cases hc : p.conditionId with
    | none => simp [groupStep, hc]
    | some c =>
      have hv : ¬ isValidBytes32 c = true := by
        intro hvv
        simp [rawCid, hc, hvv] at hp
      simp [groupStep, hc, hv]
  rw [hstep]
  constructor
  · rw [List.filterMap_append]
    simp [hp, hcids]
  · intro g hg
    have hG := hgroups g hg
    rw [List.filter_append,
      filter_singleton_none (by simp [hp]), List.append_nil]
    exact hG

/-- One grouping step preserves the invariant. -/
theorem groupStep_inv {processed : List RawPositionData} {acc : List Position}
    (h : GroupInv processed acc) (p : RawPositionData) :
    GroupInv (processed ++ [p]) (groupStep acc p) := by
  cases hraw : rawCid p with
  | none => exact groupStep_invalid h p hraw
  | some cid =>
    obtain ⟨hcids, hgroups⟩ := h
    -- decode `rawCid p = some cid`
    have hc : p.conditionId = some cid ∧ isValidBytes32 cid = true := by
      cases hcc : p.conditionId with
      | none => simp [rawCid, hcc] at hraw
      | some c =>
        by_cases hv : isValidBytes32 c = true
        · have hceq : c = cid := by simpa [rawCid, hcc, hv] using hraw
          subst hceq
          exact ⟨rfl, hv⟩
        · simp [rawCid, hcc, hv] at hraw
    have hfm : (processed ++ [p]).filterMap rawCid
        = processed.filterMap rawCid ++ [cid] := by
      rw [List.filterMap_append]
      simp [hraw]
    have hstep : groupStep acc p
        = (if acc.any (fun g => g.conditionId = cid) then acc
           else acc ++ [newGroup cid p]).map
            (fun g => if g.conditionId = cid then addOutcome g (mkOutcome p)
                      else g) := by
      simp only [groupStep, hc.1]
      rw [if_neg (by simp [hc.2])]
    by_cases hmem : acc.any (fun g => g.conditionId = cid) = true
    · -- existing group: update in place
      rw [hstep, if_pos hmem]
      have hcid_mem : cid ∈ acc.map Position.conditionId := by
        rcases List.any_eq_true.1 hmem with ⟨g, hg, hdec⟩
        exact List.mem_map.2 ⟨g, hg, of_decide_eq_true hdec⟩
      constructor
      · have hmapeq : (acc.map (fun g => if g.conditionId = cid
            then addOutcome g (mkOutcome p) else g)).map Position.conditionId
              = acc.map Position.conditionId := by
          rw [List.map_map]
          apply List.map_congr_left
          intro g _
          by_cases hgc : g.conditionId = cid
          · simp only [Function.comp_apply, if_pos hgc]
            rfl
          · simp only [Function.comp_apply, if_neg hgc]
        rw [hmapeq, hcids, hfm, firstOccurrences_append_singleton,
          if_pos (hcids ▸ hcid_mem)]
      · intro g' hg'
        rcases List.mem_map.1 hg' with ⟨g, hg, rfl⟩
        obtain ⟨hout, hval, hsize⟩ := hgroups g hg
        by_cases hgc : g.conditionId = cid
        · rw [if_pos hgc]
          have hcid' : (addOutcome g (mkOutcome p)).conditionId
              = g.conditionId := rfl
          refine ⟨?_, ?_, ?_⟩
          · rw [hcid', List.filter_append,
              filter_singleton_keep (by rw [hraw, hgc]),
              List.map_append, ← hout]
            rfl
          · show g.totalValue + (mkOutcome p).value = _
            show _ = ((g.outcomes ++ [mkOutcome p]).map Outcome.value).sum
            rw [List.map_append, List.sum_append, ← hval]
            simp
          · show g.totalSize + (mkOutcome p).size = _
            show _ = ((g.outcomes ++ [mkOutcome p]).map Outcome.size).sum
            rw [List.map_append, List.sum_append, ← hsize]
            simp
        · rw [if_neg hgc]
          refine ⟨?_, hval, hsize⟩
          rw [List.filter_append,
            filter_singleton_none (by
              rw [hraw]
              exact fun hh => hgc (Option.some_injective _ hh).symm),
            List.append_nil]
          exact hout
    · -- first appearance: append a fresh group, then update it
      have hnotin : ∀ g ∈ acc, g.conditionId ≠ cid := by
        intro g hg hgc
        exact hmem (List.any_eq_true.2 ⟨g, hg, decide_eq_true hgc⟩)
      have hcid_notmem : cid ∉ acc.map Position.conditionId := by
        intro hmemm
        rcases List.mem_map.1 hmemm with ⟨g, hg, hgc⟩
        exact hnotin g hg hgc
      have hnew : groupStep acc p
          = acc ++ [addOutcome (newGroup cid p) (mkOutcome p)] := by
        rw [hstep, if_neg hmem, List.map_append]
        congr 1
        · conv_rhs => rw [← List.map_id acc]
          apply List.map_congr_left
          intro g hg
          simp [hnotin g hg]
        · simp [newGroup]
      rw [hnew]
      have hnoprev : processed.filter (fun q => rawCid q = some cid) = [] := by
        rw [List.filter_eq_nil_iff]
        intro q hq hdec
        have hqcid : rawCid q = some cid := of_decide_eq_true hdec
        have hmem2 : cid ∈ firstOccurrences (processed.filterMap rawCid) :=
          mem_firstOccurrences.2 (List.mem_filterMap.2 ⟨q, hq, hqcid⟩)
        exact hcid_notmem (hcids.symm ▸ hmem2)
      constructor
      · rw [List.map_append, hcids, hfm, firstOccurrences_append_singleton,
          if_neg (fun hmemm => hcid_notmem (hcids.symm ▸ hmemm))]
        rfl
      · intro g' hg'
        rcases List.mem_append.1 hg' with hg | hg
        · obtain ⟨hout, hval, hsize⟩ := hgroups g' hg
          refine ⟨?_, hval, hsize⟩
          rw [List.filter_append,
            filter_singleton_none (by
              rw [hraw]
              exact fun hh =>
                hnotin g' hg (Option.some_injective _ hh).symm),
            List.append_nil]
          exact hout
        · rw [List.mem_singleton.1 hg]
          refine ⟨?_, ?_, ?_⟩
          · show [mkOutcome p] = _
            rw [show (addOutcome (newGroup cid p) (mkOutcome p)).conditionId
                = cid from rfl]
            rw [List.filter_append, hnoprev, List.nil_append,
              filter_singleton_keep hraw]
            rfl
          · simp [addOutcome, newGroup]
          · simp [addOutcome, newGroup]

/-- The fold preserves the invariant along any suffix. -/
theorem groupFold_inv :
    ∀ (raws processed : List RawPositionData) (acc : List Position),
      GroupInv processed acc →
      GroupInv (processed ++ raws) (raws.foldl groupStep acc) := by
  intro raws
  induction raws with
  | nil => intro processed acc h; simpa using h
  | cons p raws ih =>
    intro processed acc h
    have hstep := groupStep_inv h p
    have := ih (processed ++ [p]) (groupStep acc p) hstep
    simpa [List.append_assoc] using this

/-- C9.  The grouping phase drops exactly the entries with a missing or
malformed condition id (non-fatally — the fold is total); the returned
groups are keyed by the valid condition ids in order of each id's first
appearance (not sorted); each group's outcome list is exactly the
clamped outcomes of its entries in order; and each group's `totalValue`
and `totalSize` are the sums of its per-outcome values and sizes, every
one clamped to be non-negative before summing. -/
theorem getRedeemablePositions_grouping (raws : List RawPositionData) :
    (getRedeemablePositions raws).map Position.conditionId
        = firstOccurrences (raws.filterMap rawCid) ∧
    ∀ g ∈ getRedeemablePositions raws,
      g.outcomes
          = (raws.filter (fun p => rawCid p = some g.conditionId)).map mkOutcome ∧
      g.totalValue = (g.outcomes.map Outcome.value).sum ∧
      g.totalSize = (g.outcomes.map Outcome.size).sum ∧
      ∀ oc ∈ g.outcomes, 0 ≤ oc.value ∧ 0 ≤ oc.size := by
  have hinv0 : GroupInv [] [] := ⟨rfl, by intro g hg; exact absurd hg (by simp)⟩
  have h := groupFold_inv raws [] [] hinv0
  rw [List.nil_append] at h
  obtain ⟨hcids, hgroups⟩ := h
  refine ⟨hcids, ?_⟩
  intro g hg
  obtain ⟨hout, hval, hsize⟩ := hgroups g hg
  refine ⟨hout, hval, hsize, ?_⟩
  intro oc hoc
  rw [hout] at hoc
  rcases List.mem_map.1 hoc with ⟨q, _, rfl⟩
  exact ⟨le_max_left 0 _, le_max_left 0 _⟩

/-- A valid example condition id (64 hex digits). -/
def cidA : String :=
  "0xaaaaaaaaaaaaaaaaaaaaaaaaaaaaaaaaaaaaaaaaaaaaaaaaaaaaaaaaaaaaaaaa"

/-- The spec's grouping example, first entry: a winning YES outcome. -/
def rawYes : RawPositionData :=
  ⟨some cidA, some "Market", false, some "YES", some 0, some 10, some 10⟩

/-- The spec's grouping example, second entry: a worthless NO outcome. -/
def rawNo : RawPositionData :=
  ⟨some cidA, some "Market", false, some "NO", some 1, some 0, some 0⟩

/-- C9, witness: the spec's two-entry example groups into one position with
two outcomes, `totalValue = 10 =` the sum of its outcome values, keyed by
the shared condition id. -/
theorem getRedeemablePositions_grouping_witness :
    (getRedeemablePositions [rawYes, rawNo]).map Position.conditionId
        = firstOccurrences ([rawYes, rawNo].filterMap rawCid) ∧
    (getRedeemablePositions [rawYes, rawNo]).map Position.conditionId = [cidA] ∧
    (getRedeemablePositions [rawYes, rawNo]).map Position.totalValue = [10] ∧
    (getRedeemablePositions [rawYes, rawNo]).map
        (fun g => (g.outcomes.map Outcome.value).sum) = [10] := by
  have h := getRedeemablePositions_grouping [rawYes, rawNo]
  exact ⟨h.1, by decide, by decide, by decide⟩

/-! ## C1/C2 — vault round-trip and tamper fail-closed -/

namespace KeyManager

/-- Reading a length-prefixed packing recovers the field and remainder. -/
theorem readLenc_lenc (xs ys : Bytes) :
    readLenc (lenc xs ++ ys) = some (xs, ys) := by
  show (if xs.length ≤ (xs ++ ys).length
      then some ((xs ++ ys).take xs.length, (xs ++ ys).drop xs.length)
      else none) = some (xs, ys)
  rw [if_pos (by rw [List.length_append]; omega)]
  rw [List.take_left, List.drop_left]

/-- Reading a trailing length-prefixed packing leaves nothing. -/
theorem readLenc_lenc_nil (xs : Bytes) : readLenc (lenc xs) = some (xs, []) := by
  have h := readLenc_lenc xs []
  rwa [List.append_nil] at h

/-- Length-prefixed packings concatenate injectively. -/
theorem lenc_append_inj {a b x y : Bytes} (h : lenc a ++ x = lenc b ++ y) :
    a = b ∧ x = y := by
  unfold lenc at h
  rw [List.cons_append, List.cons_append] at h
  injection h with h1 h2
  have hab : a = b := by
    have ha := List.take_left a x
    have hb := List.take_left b y
    rw [← ha, h2, h1, hb]
  subst hab
  exact ⟨rfl, List.append_cancel_left h2⟩

/-- The string-to-bytes map is injective. -/
theorem strBytes_inj {s t : String} (h : strBytes s = strBytes t) : s = t := by
  unfold strBytes at h
  have hchar : Function.Injective Char.toNat := by
    intro c d hcd
    rw [← Char.ofNat_toNat c, hcd, Char.ofNat_toNat]
  exact String.ext ((List.map_injective_iff.2 hchar) h)

/-- Decoding inverts the string-to-bytes map. -/
theorem bytesStr_strBytes (s : String) : bytesStr (strBytes s) = s := by
  unfold bytesStr strBytes
  rw [List.map_map]
  have hmap : s.data.map (Char.ofNat ∘ Char.toNat) = s.data := by
    conv_rhs => rw [← List.map_id s.data]
    apply List.map_congr_left
    intro c _
    exact Char.ofNat_toNat c
  rw [hmap]

/-- Parsing inverts serialization of the secret bundle (the JSON
round-trip the vault relies on). -/
theorem deserialize_serialize (k : EncryptedKeys) :
    deserializeKeys (serializeKeys k) = some k := by
  unfold deserializeKeys serializeKeys
  rw [readLenc_lenc]
  simp only
  rw [readLenc_lenc]
  simp only
  rw [readLenc_lenc]
  simp only
  rw [readLenc_lenc]
  simp only
  rw [readLenc_lenc_nil]
  simp [bytesStr_strBytes]

/-- The ideal stream cipher is an involution, like AES-CTR. -/
theorem xorCipherAux_invol (key : Bytes) :
    ∀ (data : Bytes) (i : Nat),
      xorCipherAux key i (xorCipherAux key i data) = data := by
  intro data
  induction data with
  | nil => intro i; rfl
  | cons b bs ih =>
    intro i
    show (b ^^^ keyByte key i ^^^ keyByte key i) ::
        xorCipherAux key (i + 1) (xorCipherAux key (i + 1) bs) = b :: bs
    rw [ih (i + 1), Nat.xor_assoc, Nat.xor_self, Nat.xor_zero]

/-- Decrypting with the same key inverts encrypting. -/
theorem xorCipher_invol (key data : Bytes) :
    xorCipher key (xorCipher key data) = data :=
  xorCipherAux_invol key data 0

/-- The ideal tag is perfectly binding: it determines key, IV, associated
data and ciphertext. -/
theorem gcmTag_inj {k1 i1 a1 c1 k2 i2 a2 c2 : Bytes}
    (h : gcmTag k1 i1 a1 c1 = gcmTag k2 i2 a2 c2) :
    k1 = k2 ∧ i1 = i2 ∧ a1 = a2 ∧ c1 = c2 := by
  unfold gcmTag at h
  obtain ⟨hk, h⟩ := lenc_append_inj h
  obtain ⟨-, h⟩ := lenc_append_inj h
  obtain ⟨hi, h⟩ := lenc_append_inj h
  obtain ⟨ha, h⟩ := lenc_append_inj h
  unfold lenc at h
  injection h with _ hc
  exact ⟨hk, hi, ha, hc⟩

/-- The ideal KDF is injective in the password for a fixed salt. -/
theorem deriveKey_inj {p q : String} {salt : Bytes}
    (h : deriveKey p salt = deriveKey q salt) : p = q := by
  unfold deriveKey at h
  exact strBytes_inj (lenc_append_inj h).1

end KeyManager

/-- C1.  Vault round-trip: unlocking with the setup password returns the
stored bundle exactly, and unlocking with any other password fails closed
with the single `DecryptionError` (`none`) — never partial or garbage
data.  `salt`/`iv` are the random bytes `encrypt` draws. -/
theorem vault_roundtrip (keys : EncryptedKeys) (password : String)
    (salt iv : Bytes) :
    KeyManager.loadKeys (some (KeyManager.storeKeys keys password salt iv))
        password = some keys ∧
    (∀ other : String, other ≠ password →
       KeyManager.loadKeys (some (KeyManager.storeKeys keys password salt iv))
           other = none) := by
  constructor
  · show KeyManager.decrypt (KeyManager.encrypt keys password salt iv) password
        = some keys
    unfold KeyManager.decrypt KeyManager.encrypt
    rw [if_pos rfl, KeyManager.xorCipher_invol]
    exact KeyManager.deserialize_serialize keys
  · intro other hne
    show KeyManager.decrypt (KeyManager.encrypt keys password salt iv) other
        = none
    unfold KeyManager.decrypt KeyManager.encrypt
    rw [if_neg ?hne]
    case hne =>
      intro heq
      exact hne (KeyManager.deriveKey_inj (KeyManager.gcmTag_inj heq).1).symm

/-- C1, witness: a concrete bundle stored under `"hunter22"` unlocks with
`"hunter22"` and fails closed with `"hunter23"`. -/
theorem vault_roundtrip_witness :
    KeyManager.loadKeys
        (some (KeyManager.storeKeys ⟨"0xaa", "0xbb", "k", "s", "p"⟩
          "hunter22" [1, 2] [3, 4])) "hunter22"
      = some ⟨"0xaa", "0xbb", "k", "s", "p"⟩ ∧
    KeyManager.loadKeys
        (some (KeyManager.storeKeys ⟨"0xaa", "0xbb", "k", "s", "p"⟩
          "hunter22" [1, 2] [3, 4])) "hunter23"
      = none := by
  have h := vault_roundtrip ⟨"0xaa", "0xbb", "k", "s", "p"⟩ "hunter22" [1, 2] [3, 4]
  exact ⟨h.1, h.2 "hunter23" (by decide)⟩

namespace KeyManager

/-- `getD` after `set` at the written index. -/
theorem getD_set_self {l : List Nat} {i b : Nat} (hi : i < l.length) :
    (l.set i b).getD i 0 = b := by
  rw [List.getD_eq_getElem?_getD, List.getElem?_set_self hi]
  rfl

/-- `getD` after `set` away from the written index. -/
theorem getD_set_ne {l : List Nat} {i p b : Nat} (hip : i ≠ p) :
    (l.set i b).getD p 0 = l.getD p 0 := by
  rw [List.getD_eq_getElem?_getD, List.getElem?_set_ne hip,
    ← List.getD_eq_getElem?_getD]

/-- Overwriting one byte with a different value changes the list. -/
theorem set_ne_self {l : List Nat} {i b : Nat} (hi : i < l.length)
    (hb : b ≠ l.getD i 0) : l.set i b ≠ l := by
  intro heq
  apply hb
  calc b = (l.set i b).getD i 0 := (getD_set_self hi).symm
    _ = l.getD i 0 := by rw [heq]

/-- A length-prefixed packing is nonempty. -/
theorem lenc_length_pos (xs : Bytes) : 0 < (lenc xs).length := by
  simp [lenc]

/-- The double-key packing defeats single-byte tag forgeries: two valid
tags for distinct keys over the same remainder differ in at least two
positions when the key packings have equal length, and in length
otherwise, so no single-byte overwrite of one yields the other. -/
theorem double_key_flip_ne {k1 k2 R : Bytes} (hne : k1 ≠ k2) (i b : Nat) :
    (lenc k1 ++ (lenc k1 ++ R)).set i b ≠ lenc k2 ++ (lenc k2 ++ R) := by
  intro heq
  by_cases hlen : (lenc k1).length = (lenc k2).length
  · have hlenc_ne : lenc k1 ≠ lenc k2 := by
      intro hh
      unfold lenc at hh
      injection hh with _ h2
      exact hne h2
    have hex : ∃ j, j < (lenc k1).length ∧
        (lenc k1).getD j 0 ≠ (lenc k2).getD j 0 := by
      by_contra hno
      push_neg at hno
      apply hlenc_ne
      apply List.ext_getElem hlen
      intro n h1 h2
      have hn := hno n h1
      rwa [List.getD_eq_getElem _ 0 h1, List.getD_eq_getElem _ 0 h2] at hn
    obtain ⟨j, hj, hdiff⟩ := hex
    have hji : j ≠ i ∨ (lenc k1).length + j ≠ i := by
      by_contra hno
      push_neg at hno
      have := lenc_length_pos k1
      omega
    rcases hji with hji | hji
    · have h1 : ((lenc k1 ++ (lenc k1 ++ R)).set i b).getD j 0
          = (lenc k1).getD j 0 := by
        rw [getD_set_ne (fun hh => hji hh.symm), List.getD_append _ _ _ _ hj]
      have h2 : (lenc k2 ++ (lenc k2 ++ R)).getD j 0 = (lenc k2).getD j 0 :=
        List.getD_append _ _ _ _ (hlen ▸ hj)
      rw [heq, h2] at h1
      exact hdiff h1.symm
    · have h1 : ((lenc k1 ++ (lenc k1 ++ R)).set i b).getD
          ((lenc k1).length + j) 0 = (lenc k1).getD j 0 := by
        rw [getD_set_ne (fun hh => hji hh.symm),
          List.getD_append_right _ _ _ _ (Nat.le_add_right _ _),
          Nat.add_sub_cancel_left, List.getD_append _ _ _ _ hj]
      have h2 : (lenc k2 ++ (lenc k2 ++ R)).getD ((lenc k1).length + j) 0
          = (lenc k2).getD j 0 := by
        rw [hlen, List.getD_append_right _ _ _ _ (Nat.le_add_right _ _),
          Nat.add_sub_cancel_left, List.getD_append _ _ _ _ (hlen ▸ hj)]
      rw [heq, h2] at h1
      exact hdiff h1.symm
  · apply hlen
    have hlen2 := congrArg List.length heq
    rw [List.length_set, List.length_append, List.length_append,
      List.length_append, List.length_append] at hlen2
    omega

end KeyManager

/-- C2.  Tamper fail-closed: overwriting any single byte of the persisted
record's ciphertext with a different value — indeed, replacing the
ciphertext with anything different at all — or overwriting any single byte
of its authentication tag, makes `decrypt` fail with the `DecryptionError`
(`none`) for *every* password, the original one included; no partial
secret is ever recovered from a tampered record. -/
theorem vault_tamper_fail_closed (keys : EncryptedKeys) (password : String)
    (salt iv : Bytes) :
    (∀ i b, i < (KeyManager.encrypt keys password salt iv).encrypted.length →
       b ≠ (KeyManager.encrypt keys password salt iv).encrypted.getD i 0 →
       ∀ other : String,
         KeyManager.decrypt
           { KeyManager.encrypt keys password salt iv with
             encrypted :=
               (KeyManager.encrypt keys password salt iv).encrypted.set i b }
           other = none) ∧
    (∀ ct', ct' ≠ (KeyManager.encrypt keys password salt iv).encrypted →
       ∀ other : String,
         KeyManager.decrypt
           { KeyManager.encrypt keys password salt iv with encrypted := ct' }
           other = none) ∧
    (∀ i b, i < (KeyManager.encrypt keys password salt iv).tag.length →
       b ≠ (KeyManager.encrypt keys password salt iv).tag.getD i 0 →
       ∀ other : String,
         KeyManager.decrypt
           { KeyManager.encrypt keys password salt iv with
             tag := (KeyManager.encrypt keys password salt iv).tag.set i b }
           other = none) := by
  have hct : ∀ ct', ct' ≠ (KeyManager.encrypt keys password salt iv).encrypted →
      ∀ other : String,
        KeyManager.decrypt
          { KeyManager.encrypt keys password salt iv with encrypted := ct' }
          other = none := by
    intro ct' hne other
    unfold KeyManager.decrypt KeyManager.encrypt
    rw [if_neg ?tagne]
    case tagne =>
      intro heq
      exact hne (KeyManager.gcmTag_inj heq).2.2.2.symm
  refine ⟨?_, hct, ?_⟩
  · intro i b hi hb other
    exact hct _ (KeyManager.set_ne_self hi hb) other
  · intro i b hi hb other
    unfold KeyManager.decrypt KeyManager.encrypt
    by_cases hk : KeyManager.deriveKey other salt
        = KeyManager.deriveKey password salt
    · rw [hk, if_neg ?sametag]
      case sametag =>
        exact KeyManager.set_ne_self hi hb
    · rw [if_neg ?difftag]
      case difftag =>
        unfold KeyManager.gcmTag
        exact KeyManager.double_key_flip_ne (fun hh => hk hh.symm) i b

/-- C2, witness: on a concrete stored record, flipping ciphertext byte 0
and flipping tag byte 3 each make decryption fail for both the original
and another password. -/
theorem vault_tamper_fail_closed_witness :
    (KeyManager.decrypt
        { KeyManager.encrypt ⟨"0xaa", "0xbb", "k", "s", "p"⟩
            "hunter22" [1, 2] [3, 4] with
          encrypted := (KeyManager.encrypt ⟨"0xaa", "0xbb", "k", "s", "p"⟩
            "hunter22" [1, 2] [3, 4]).encrypted.set 0 255 }
        "hunter22" = none) ∧
    (KeyManager.decrypt
        { KeyManager.encrypt ⟨"0xaa", "0xbb", "k", "s", "p"⟩
            "hunter22" [1, 2] [3, 4] with
          tag := (KeyManager.encrypt ⟨"0xaa", "0xbb", "k", "s", "p"⟩
            "hunter22" [1, 2] [3, 4]).tag.set 3 255 }
        "other-pass" = none) := by
  have h := vault_tamper_fail_closed ⟨"0xaa", "0xbb", "k", "s", "p"⟩
    "hunter22" [1, 2] [3, 4]
  exact ⟨h.1 0 255 (by decide) (by decide) "hunter22",
         h.2.2 3 255 (by decide) (by decide) "other-pass"⟩

end Redeem
